import Mathlib

/-!
Shallow embedding, in Lean 4, of the retrieval-and-ranking core of the
recipe-discovery backend: the text chunker and per-row chunk metadata of
`scripts/ingestRecipes.ts`, the batch/slice flush error policy of the same
file, the two copies of `aggregateMatches` (`src/utils/aggregate.ts` and the
extended copy bundled with `src/utils/clients.ts`), and the two-tier
ingredient matcher of the match controller (`postMatchByIngredients`).

Strings are modelled as `List Char` where character-level reasoning is
needed (chunking, ingredient tokenization) and as `String` where they are
only carried along (titles, snippets).  JS numbers are modelled as `Rat`.
-/

namespace Spec2Proof

/-! ## JS string primitives -/

/-- Whitespace predicate used by JS `trim` / the regex class `\s`
(restricted to the ASCII whitespace that can occur in the data). -/
def isWS (c : Char) : Bool :=
  c = ' ' || c = '\t' || c = '\n' || c = '\r'

/-- JS `String.prototype.trim` on a character list: strip leading and
trailing whitespace. -/
def jsTrim (s : List Char) : List Char :=
  ((s.dropWhile isWS).reverse.dropWhile isWS).reverse

/-- JS `text.slice(start, end)` on a character list (with `0 ≤ start ≤ end`). -/
def jsSlice (s : List Char) (a b : Nat) : List Char :=
  (s.drop a).take (b - a)

/-- JS `String.prototype.trim` on a Lean `String`. -/
def jsTrimString (s : String) : String := ⟨jsTrim s.data⟩

/-- JS `str.slice(0, n)` on a Lean `String`: the first `n` characters. -/
def jsTakeStr (s : String) (n : Nat) : String := ⟨s.data.take n⟩

/-! ## Text chunker (`chunkText` in `scripts/ingestRecipes.ts`)

```
function chunkText(text, size, overlap) {
    const out = [];
    if (!text) return out;
    let start = 0;
    const n = text.length;
    while (start < n) {
        let end = Math.min(n, start + size);
        if (end < n) {
            const lastSpace = text.lastIndexOf(" ", end);
            if (lastSpace > start) end = lastSpace;
        }
        const chunk = text.slice(start, end).trim();
        if (chunk) out.push(chunk);
        start = end - overlap;
        if (start < 0) start = 0;
        if (end === n) break;
    }
    return out;
}
```

The `while` loop does not terminate for all inputs, so the loop is embedded
with explicit fuel: `none` means the fuel ran out before the loop finished.
`start = end - overlap; if (start < 0) start = 0` is natural subtraction. -/

/-- JS `text.lastIndexOf(" ", j)`: the largest index `i ≤ j` with
`text[i] = ' '`, or `none` (JS `-1`) when there is no space at or before `j`. -/
def lastSpaceLE (t : List Char) : Nat → Option Nat
  | 0 => if t.getD 0 'x' = ' ' then some 0 else none
  | j + 1 =>
    if t.getD (j + 1) 'x' = ' ' then some (j + 1) else lastSpaceLE t j

/-- The window's right edge for one iteration of the chunk loop:
`end = min(n, start + size)`, backtracked to the last space when that space
lies strictly inside the current window (`lastSpace > start`). -/
def chunkEnd (t : List Char) (size start : Nat) : Nat :=
  let n := t.length
  let e := min n (start + size)
  if e < n then
    match lastSpaceLE t e with
    | some ls => if start < ls then ls else e
    | none => e
  else e

/-- The fueled chunk loop.  State: window `start` and accumulated `out`. -/
def chunkTextGo (t : List Char) (size overlap : Nat) :
    Nat → Nat → List (List Char) → Option (List (List Char))
  | 0, _, _ => none
  | fuel + 1, start, out =>
    if start < t.length then
      let e := chunkEnd t size start
      let chunk := jsTrim (jsSlice t start e)
      let out' := if chunk.isEmpty then out else out ++ [chunk]
      if e = t.length then some out'
      else chunkTextGo t size overlap fuel (e - overlap) out'
    else some out

/-- `chunkText(text, size, overlap)` with explicit fuel for the loop. -/
def chunkText (t : List Char) (size overlap : Nat) (fuel : Nat) :
    Option (List (List Char)) :=
  if t.isEmpty then some [] else chunkTextGo t size overlap fuel 0 []

/-! ### Chunker lemmas -/

theorem mem_dropWhile_of_not {p : Char → Bool} {x : Char} :
    ∀ {l : List Char}, x ∈ l → p x = false → x ∈ l.dropWhile p := by
  intro l
  induction l with
  | nil => intro h; cases h
  | cons a t ih =>
    intro hmem hpx
    rw [List.dropWhile_cons]
    by_cases hpa : p a = true
    · simp only [hpa, if_true]
      rcases List.mem_cons.mp hmem with rfl | ht
      · rw [hpx] at hpa; cases hpa
      · exact ih ht hpx
    · simp only [hpa, if_false]
      exact hmem

theorem mem_jsTrim {x : Char} {l : List Char} (hmem : x ∈ l)
    (hx : isWS x = false) : x ∈ jsTrim l := by
  unfold jsTrim
  rw [List.mem_reverse]
  apply mem_dropWhile_of_not _ hx
  rw [List.mem_reverse]
  exact mem_dropWhile_of_not hmem hx

theorem mem_jsSlice (t : List Char) (s e i : Nat) (hi : i < t.length)
    (hsi : s ≤ i) (hie : i < e) : t.get ⟨i, hi⟩ ∈ jsSlice t s e := by
  unfold jsSlice
  have hds : i - s < ((t.drop s).take (e - s)).length := by
    simp [List.length_take, List.length_drop]; omega
  have h1 : ((t.drop s).take (e - s))[i - s] = t.get ⟨i, hi⟩ := by
    rw [List.getElem_take, List.getElem_drop]
    simp only [List.get_eq_getElem]
    congr 1
    omega
  rw [← h1]
  exact List.getElem_mem hds

theorem lastSpaceLE_le {t : List Char} : ∀ {j i : Nat},
    lastSpaceLE t j = some i → i ≤ j := by
  intro j
  induction j with
  | zero =>
    intro i h
    unfold lastSpaceLE at h
    split at h
    · cases h; exact Nat.le_refl 0
    · cases h
  | succ n ih =>
    intro i h
    unfold lastSpaceLE at h
    split at h
    · cases h; exact Nat.le_refl _
    · exact Nat.le_trans (ih h) (Nat.le_succ n)

theorem chunkEnd_le (t : List Char) (size s : Nat) :
    chunkEnd t size s ≤ t.length := by
  unfold chunkEnd
  simp only []
  split
  · split
    · split
      · next h _ _ =>
        exact Nat.le_of_lt (Nat.lt_of_le_of_lt (lastSpaceLE_le (by assumption)) (by omega))
      · exact Nat.min_le_left _ _
    · exact Nat.min_le_left _ _
  · exact Nat.min_le_left _ _

/-- Chunks already accumulated are never removed by one loop step. -/
theorem acc_subset_step (acc : List (List Char)) (chunk : List Char)
    {x : List Char} (hx : x ∈ acc) :
    x ∈ (if chunk.isEmpty then acc else acc ++ [chunk]) := by
  split
  · exact hx
  · exact List.mem_append_left _ hx

/-- Loop invariant for coverage: if every non-whitespace character before
the current window start already occurs in some accumulated chunk, then a
successful run leaves every non-whitespace character of the text in some
returned chunk. -/
theorem chunkTextGo_coverage (t : List Char) (size overlap : Nat) :
    ∀ (fuel s : Nat) (acc out : List (List Char)),
    (∀ (i : Nat) (hi : i < t.length), i < s → isWS (t.get ⟨i, hi⟩) = false →
      ∃ c ∈ acc, t.get ⟨i, hi⟩ ∈ c) →
    chunkTextGo t size overlap fuel s acc = some out →
    ∀ (i : Nat) (hi : i < t.length), isWS (t.get ⟨i, hi⟩) = false →
      ∃ c ∈ out, t.get ⟨i, hi⟩ ∈ c := by
  intro fuel
  induction fuel with
  | zero => intro s acc out _ hrun; cases hrun
  | succ n ih =>
    intro s acc out hinv hrun
    unfold chunkTextGo at hrun
    by_cases hs : s < t.length
    · rw [if_pos hs] at hrun
      set e := chunkEnd t size s with he
      set chunk := jsTrim (jsSlice t s e) with hchunk
      set acc' := if chunk.isEmpty then acc else acc ++ [chunk] with hacc'
      have hcover : ∀ (i : Nat) (hi : i < t.length), s ≤ i → i < e →
          isWS (t.get ⟨i, hi⟩) = false → ∃ c ∈ acc', t.get ⟨i, hi⟩ ∈ c := by
        intro i hi hsi hie hws
        have hmem : t.get ⟨i, hi⟩ ∈ chunk :=
          mem_jsTrim (mem_jsSlice t s e i hi hsi hie) hws
        have hne : chunk.isEmpty = false := by
          cases hempty : chunk.isEmpty
          · rfl
          · rw [List.isEmpty_iff] at hempty
            rw [hempty] at hmem
            cases hmem
        refine ⟨chunk, ?_, hmem⟩
        rw [hacc', hne]
        simp only [if_false, Bool.false_eq_true]
        exact List.mem_append_right _ (List.mem_singleton.mpr rfl)
      have hinv' : ∀ (i : Nat) (hi : i < t.length), i < s →
          isWS (t.get ⟨i, hi⟩) = false → ∃ c ∈ acc', t.get ⟨i, hi⟩ ∈ c := by
        intro i hi his hws
        obtain ⟨c, hc, hcm⟩ := hinv i hi his hws
        exact ⟨c, acc_subset_step acc chunk hc, hcm⟩
      by_cases hend : e = t.length
      · rw [if_pos hend] at hrun
        have hout : acc' = out := by exact Option.some.inj hrun
        intro i hi hws
        rw [← hout]
        by_cases his : i < s
        · exact hinv' i hi his hws
        · exact hcover i hi (Nat.le_of_not_lt his) (hend ▸ hi) hws
      · rw [if_neg hend] at hrun
        refine ih (e - overlap) acc' out ?_ hrun
        intro i hi his hws
        by_cases hlts : i < s
        · exact hinv' i hi hlts hws
        · exact hcover i hi (Nat.le_of_not_lt hlts) (by omega) hws
    · rw [if_neg hs] at hrun
      have hout : acc = out := Option.some.inj hrun
      intro i hi hws
      rw [← hout]
      exact hinv i hi (by omega) hws

/-- One unfolding step of the chunk loop on the text `"ab"` with
`size = 1`, `overlap = 1`: the window is `[0, 1)`, there is no space to
backtrack to, the chunk `"a"` is pushed, and the new start is
`1 - 1 = 0` — the state does not advance. -/
theorem chunkTextGo_ab_step (n : Nat) (out : List (List Char)) :
    chunkTextGo (['a', 'b']) 1 1 (n + 1) 0 out =
      chunkTextGo (['a', 'b']) 1 1 n 0 (out ++ [['a']]) := rfl

theorem chunkTextGo_ab_none :
    ∀ (n : Nat) (out : List (List Char)),
      chunkTextGo (['a', 'b']) 1 1 n 0 out = none := by
  intro n
  induction n with
  | zero => intro out; rfl
  | succ m ih =>
    intro out
    rw [chunkTextGo_ab_step]
    exact ih (out ++ [['a']])

def sampleText : List Char := "hello world this is a test".data

/-! ### Claim C1 — chunker termination -/

/-- Claim C1 (code_bug evidence): the spec asserts `chunk(text, size,
overlap)` always terminates, even when `overlap ≥ size`, because the loop
breaks once `end == length(text)`.  The code does not: on
`chunkText("ab", 1, 1)` the window start is recomputed as
`end - overlap = 1 - 1 = 0` every iteration, `end` never reaches the end of
the text, and the loop runs forever.  In the fueled embedding, no amount of
fuel makes the loop finish. -/
theorem chunkText_ab_diverges (fuel : Nat) :
    chunkText (['a', 'b']) 1 1 fuel = none := by
  unfold chunkText
  rw [if_neg (by simp)]
  exact chunkTextGo_ab_none fuel []

/-! ### Claim C2 — chunker coverage -/

/-- Claim C2: for `size > overlap ≥ 0`, whenever `chunk(text, size,
overlap)` terminates with a chunk list, every non-whitespace character of
the text occurs in at least one returned chunk — trimming and the
all-whitespace-window filter drop only whitespace. -/
theorem chunkText_coverage (t : List Char) (size overlap fuel : Nat)
    (out : List (List Char)) (hso : overlap < size)
    (hrun : chunkText t size overlap fuel = some out) :
    ∀ (i : Nat) (hi : i < t.length), isWS (t.get ⟨i, hi⟩) = false →
      ∃ c ∈ out, t.get ⟨i, hi⟩ ∈ c := by
  unfold chunkText at hrun
  by_cases hemp : t.isEmpty
  · rw [if_pos hemp] at hrun
    intro i hi
    rw [List.isEmpty_iff] at hemp
    rw [hemp] at hi
    cases hi
  · rw [if_neg hemp] at hrun
    exact chunkTextGo_coverage t size overlap fuel 0 [] out
      (fun i hi his _ => absurd his (Nat.not_lt_zero i)) hrun

/-- Witness for C2 at a concrete input: chunking
`"hello world this is a test"` with `size = 10`, `overlap = 3` terminates,
and the theorem places the non-whitespace character at index 0 (`'h'`) in
one of the returned chunks. -/
theorem chunkText_coverage_witness :
    ∃ c ∈ (chunkText sampleText 10 3 100).getD [], sampleText.get ⟨0, by decide⟩ ∈ c :=
  chunkText_coverage sampleText 10 3 100
    ((chunkText sampleText 10 3 100).getD []) (by decide) (by decide)
    0 (by decide) (by decide)

/-! ## Ingestion per-row chunk metadata (`runIngest` in
`scripts/ingestRecipes.ts`)

```
const chunks = chunkText(fullInstructions || "", CHUNK_SIZE, CHUNK_OVERLAP);
// if no instruction, still create one empty chunk so the recipe is represented
const finalChunks = chunks.length ? chunks : [""];
for (let ci = 0; ci < finalChunks.length; ci++) {
    ...
    const metadata = { parentId, chunkIndex: ci, totalChunks: finalChunks.length, ... };
}
```
-/

/-- The chunk-level metadata fields relevant to the chunk-count invariant
(the remaining denormalized fields — title, tags, ingredients, … — do not
enter the invariant and are omitted). -/
structure ChunkMetaR where
  parentId : String
  chunkIndex : Nat
  totalChunks : Nat
  text : List Char
  deriving Repr, DecidableEq

/-- `const finalChunks = chunks.length ? chunks : [""]`. -/
def finalChunksOf (chunks : List (List Char)) : List (List Char) :=
  if chunks.isEmpty then [[]] else chunks

/-- The chunk metadata records built for one source row from its chunk
list: index `ci` runs over `finalChunks`, and every record carries
`totalChunks = finalChunks.length`. -/
def rowChunkMetas (pid : String) (chunks : List (List Char)) :
    List ChunkMetaR :=
  (finalChunksOf chunks).enum.map fun p =>
    ⟨pid, p.1, (finalChunksOf chunks).length, p.2⟩

/-! ### Claim C7 — chunk count invariant -/

/-- Claim C7: for every source row, the produced chunk metadata records
have indices exactly `0 .. totalChunks - 1` with no gaps, every record
carries `totalChunks` equal to the number of records actually produced,
at least one record exists, and a row whose instructions chunk to zero
chunks gets exactly one substitute record with empty text. -/
theorem rowChunkMetas_invariant (pid : String) (chunks : List (List Char)) :
    ((rowChunkMetas pid chunks).map fun m => m.chunkIndex) =
      List.range (rowChunkMetas pid chunks).length ∧
    (∀ m ∈ rowChunkMetas pid chunks,
      m.totalChunks = (rowChunkMetas pid chunks).length) ∧
    1 ≤ (rowChunkMetas pid chunks).length ∧
    (chunks = [] → rowChunkMetas pid chunks = [⟨pid, 0, 1, []⟩]) := by
  have hlen : (rowChunkMetas pid chunks).length = (finalChunksOf chunks).length := by
    simp [rowChunkMetas]
  refine ⟨?_, ?_, ?_, ?_⟩
  · rw [hlen]
    simp only [rowChunkMetas, List.map_map]
    have : ((fun m => m.chunkIndex) ∘ fun p : Nat × List Char =>
        (⟨pid, p.1, (finalChunksOf chunks).length, p.2⟩ : ChunkMetaR)) = Prod.fst := rfl
    rw [this, List.enum_map_fst]
  · intro m hm
    simp only [rowChunkMetas, List.mem_map] at hm
    obtain ⟨p, _, rfl⟩ := hm
    rw [hlen]
  · rw [hlen]
    unfold finalChunksOf
    split
    · decide
    · next h =>
      have : chunks ≠ [] := fun hc => h (by rw [hc]; rfl)
      exact Nat.one_le_iff_ne_zero.mpr (fun h0 => this (List.eq_nil_of_length_eq_zero h0))
  · intro h
    subst h
    rfl

def wrowPid : String := "p1"

/-- Witness for C7: a row with zero chunks (empty instructions) yields
exactly one substitute record with empty text, index 0 and
`totalChunks = 1`. -/
theorem rowChunkMetas_invariant_witness :
    rowChunkMetas wrowPid [] = [⟨wrowPid, 0, 1, []⟩] :=
  (rowChunkMetas_invariant wrowPid []).2.2.2 rfl

/-! ## Ingestion flush / failure policy
(`flushEmbedBatchAndUpsert` and `flushUpsertBuffer` in
`scripts/ingestRecipes.ts`)

The two I/O collaborators — the embedding API call
(`embeddings.embedDocuments`) and the vector-index upsert
(`pineconeIndex.namespace(...).upsert`) — are passed in as explicit
functions returning `Except`, so a thrown API error is an `Except.error`
result of the collaborator.  The side files written by
`fs.writeJSONSync(failedFile, ...)` on a failed upsert slice are collected
in a list `(error message, failed slice)`.  The metadata blob attached to a
chunk is an arbitrary type `μ`. -/

/-- One entry of `embedBatchMeta`. -/
structure EmbedMeta (μ : Type) where
  id : String
  metadata : μ
  parentId : String

/-- One entry of the upsert buffer. -/
structure UpsertItem (μ : Type) where
  id : String
  values : List Rat
  metadata : μ

/-- `UPsert_BATCH` (default 100). -/
def UPsertBatch : Nat := 100

/-- The slices `buffer.slice(i, i + chunkSize)` visited by the upsert
loop `for (let i = 0; i < buffer.length; i += chunkSize)`. -/
def slices100 {α : Type} : List α → List (List α)
  | [] => []
  | x :: xs => ((x :: xs).take UPsertBatch) :: slices100 ((x :: xs).drop UPsertBatch)
termination_by l => l.length
decreasing_by
  simp [List.length_drop, UPsertBatch]
  omega

/-- The upsert loop over the slices: a failed slice is recorded as a side
file `(error, slice)` and the loop continues with the next slice. -/
def flushSlices {μ : Type} (upsert : List (UpsertItem μ) → Except String Unit) :
    List (List (UpsertItem μ)) → List (String × List (UpsertItem μ))
  | [] => []
  | s :: rest =>
    match upsert s with
    | Except.ok _ => flushSlices upsert rest
    | Except.error e => (e, s) :: flushSlices upsert rest

/-- `flushUpsertBuffer(buffer)`: upsert the buffer slice by slice,
recording side files for failed slices, then clear the buffer
(`buffer.length = 0`).  Returns (side files, cleared buffer). -/
def flushUpsertBuffer {μ : Type}
    (upsert : List (UpsertItem μ) → Except String Unit)
    (buffer : List (UpsertItem μ)) :
    List (String × List (UpsertItem μ)) × List (UpsertItem μ) :=
  (flushSlices upsert (slices100 buffer), [])

/-- The push loop of `flushEmbedBatchAndUpsert`: route each (meta, vector)
pair into the upsert buffer, skipping empty vectors, and flush the buffer
through `flushUpsertBuffer` whenever it reaches `UPsert_BATCH`.  Returns
the remaining buffer and the side files accumulated by the flushes. -/
def pushVectors {μ : Type} (upsert : List (UpsertItem μ) → Except String Unit) :
    List (EmbedMeta μ × List Rat) → List (UpsertItem μ) →
    List (UpsertItem μ) × List (String × List (UpsertItem μ))
  | [], buf => (buf, [])
  | (m, v) :: rest, buf =>
    if v.isEmpty then pushVectors upsert rest buf
    else
      let buf' := buf ++ [⟨m.id, v, m.metadata⟩]
      if UPsertBatch ≤ buf'.length then
        let flushed := flushUpsertBuffer upsert buf'
        let res := pushVectors upsert rest flushed.2
        (res.1, flushed.1 ++ res.2)
      else pushVectors upsert rest buf'

/-- `flushEmbedBatchAndUpsert(texts, meta, upsertBuffer)`.  The parallel
arrays `nonEmptyTexts` / `nonEmptyMeta` (built by skipping texts that are
empty after trimming) are modelled by filtering the zip of the two input
arrays, which is the same pairing when the lengths agree.  The only
`throw` is the internal length-mismatch check; an embedding-API error or a
malformed embedding response drops the batch and returns normally with the
buffer unchanged. -/
def flushEmbedBatchAndUpsert {μ : Type}
    (embed : List (List Char) → Except String (List (List Rat)))
    (upsert : List (UpsertItem μ) → Except String Unit)
    (texts : List (List Char)) (meta : List (EmbedMeta μ))
    (buffer : List (UpsertItem μ)) :
    Except String (List (UpsertItem μ) × List (String × List (UpsertItem μ))) :=
  if texts.length ≠ meta.length then
    Except.error "Internal mismatch between texts and meta arrays"
  else
    let pairs := (texts.zip meta).filter fun p => !(jsTrim p.1).isEmpty
    if pairs.isEmpty then Except.ok (buffer, [])
    else
      match embed (pairs.map fun p => p.1) with
      | Except.error _ => Except.ok (buffer, [])
      | Except.ok vectors =>
        if vectors.length ≠ pairs.length then Except.ok (buffer, [])
        else Except.ok (pushVectors upsert ((pairs.map fun p => p.2).zip vectors) buffer)

theorem slices100_flatten {α : Type} (l : List α) : (slices100 l).flatten = l := by
  match l with
  | [] => simp [slices100]
  | x :: xs =>
    rw [slices100, List.flatten_cons, slices100_flatten ((x :: xs).drop UPsertBatch)]
    exact List.take_append_drop _ _
termination_by l.length
decreasing_by
  simp [List.length_drop, UPsertBatch]
  omega

theorem flushSlices_eq_filterMap {μ : Type}
    (upsert : List (UpsertItem μ) → Except String Unit) :
    ∀ ss : List (List (UpsertItem μ)),
    flushSlices upsert ss = ss.filterMap fun s =>
      match upsert s with
      | Except.ok _ => none
      | Except.error e => some (e, s) := by
  intro ss
  induction ss with
  | nil => rfl
  | cons s rest ih =>
    rw [flushSlices, List.filterMap_cons]
    cases upsert s <;> simp [ih]

/-! ### Claim C9 — batch-scoped failures never abort the run -/

/-- Claim C9: (a) when the embedding-API call for a batch fails, the whole
batch is dropped and `flushEmbedBatchAndUpsert` returns normally with the
upsert buffer unchanged and no side effects — the run continues; (b)
`flushUpsertBuffer` never fails: it clears the buffer, attempts every
slice exactly once (the slices partition the buffer), and records exactly
one side file per failed slice while continuing with the remaining
slices. -/
theorem ingest_failure_policy :
    (∀ (μ : Type) (embed : List (List Char) → Except String (List (List Rat)))
      (upsert : List (UpsertItem μ) → Except String Unit)
      (texts : List (List Char)) (meta : List (EmbedMeta μ))
      (buffer : List (UpsertItem μ)) (e : String),
      texts.length = meta.length →
      embed (((texts.zip meta).filter fun p => !(jsTrim p.1).isEmpty).map fun p => p.1) =
        Except.error e →
      flushEmbedBatchAndUpsert embed upsert texts meta buffer =
        Except.ok (buffer, [])) ∧
    (∀ (μ : Type) (upsert : List (UpsertItem μ) → Except String Unit)
      (buffer : List (UpsertItem μ)),
      (flushUpsertBuffer upsert buffer).2 = [] ∧
      (flushUpsertBuffer upsert buffer).1 = (slices100 buffer).filterMap
        (fun s => match upsert s with
          | Except.ok _ => none
          | Except.error e => some (e, s)) ∧
      (slices100 buffer).flatten = buffer) := by
  constructor
  · intro μ embed upsert texts meta buffer e hlen hemb
    unfold flushEmbedBatchAndUpsert
    rw [if_neg (by omega)]
    simp only []
    split
    · rfl
    · rw [hemb]
  · intro μ upsert buffer
    exact ⟨rfl, flushSlices_eq_filterMap upsert (slices100 buffer),
      slices100_flatten buffer⟩

/-! ## JS `Array.prototype.sort` with a comparator

`arr.sort(cmp)` is a stable sort (ES2019); `bf a b` models
`cmp(a, b) < 0`, i.e. "`a` must come strictly before `b`".  The stable
sort is modelled by insertion from the left, each element inserted as late
as possible among elements it is not strictly before. -/

def insertB {α : Type} (bf : α → α → Bool) (x : α) : List α → List α
  | [] => [x]
  | y :: ys => if bf x y then x :: y :: ys else y :: insertB bf x ys

def sortB {α : Type} (bf : α → α → Bool) (l : List α) : List α :=
  l.foldl (fun acc x => insertB bf x acc) []

theorem insertB_perm {α : Type} (bf : α → α → Bool) (x : α) :
    ∀ l : List α, (insertB bf x l).Perm (x :: l) := by
  intro l
  induction l with
  | nil => exact List.Perm.refl _
  | cons y ys ih =>
    unfold insertB
    split
    · exact List.Perm.refl _
    · exact (ih.cons y).trans (List.Perm.swap x y ys)

theorem foldl_insertB_perm {α : Type} (bf : α → α → Bool) :
    ∀ (l acc : List α),
      (l.foldl (fun a x => insertB bf x a) acc).Perm (acc ++ l) := by
  intro l
  induction l with
  | nil => intro acc; simp
  | cons x xs ih =>
    intro acc
    rw [List.foldl_cons]
    refine ((ih (insertB bf x acc)).trans ?_)
    refine (((insertB_perm bf x acc).append_right xs).trans ?_)
    exact List.perm_middle.symm

theorem sortB_perm {α : Type} (bf : α → α → Bool) (l : List α) :
    (sortB bf l).Perm l := by
  have h := foldl_insertB_perm bf l []
  simpa [sortB] using h

theorem mem_insertB {α : Type} {bf : α → α → Bool} {x z : α} {l : List α} :
    z ∈ insertB bf x l ↔ z = x ∨ z ∈ l := by
  rw [(insertB_perm bf x l).mem_iff]
  simp

theorem insertB_pairwise {α : Type} {R : α → α → Prop} {bf : α → α → Bool}
    (h1 : ∀ a b, bf a b = true → R a b)
    (h2 : ∀ a b, bf a b = false → R b a)
    (htr : ∀ a b c, R a b → R b c → R a c) (x : α) :
    ∀ l : List α, l.Pairwise R → (insertB bf x l).Pairwise R := by
  intro l
  induction l with
  | nil => intro _; exact List.pairwise_singleton R x
  | cons y ys ih =>
    intro hp
    unfold insertB
    split
    · next hbf =>
      refine List.Pairwise.cons ?_ hp
      intro z hz
      rcases List.mem_cons.mp hz with rfl | hzys
      · exact h1 x z hbf
      · exact htr x y z (h1 x y hbf) (List.rel_of_pairwise_cons hp hzys)
    · next hbf =>
      refine List.Pairwise.cons ?_ (ih hp.of_cons)
      intro z hz
      rcases mem_insertB.mp hz with rfl | hzys
      · exact h2 z y (Bool.eq_false_iff.mpr fun h => hbf h)
      · exact List.rel_of_pairwise_cons hp hzys

theorem sortB_pairwise {α : Type} {R : α → α → Prop} {bf : α → α → Bool}
    (h1 : ∀ a b, bf a b = true → R a b)
    (h2 : ∀ a b, bf a b = false → R b a)
    (htr : ∀ a b c, R a b → R b c → R a c) (l : List α) :
    (sortB bf l).Pairwise R := by
  have hgen : ∀ (l' acc : List α), acc.Pairwise R →
      (l'.foldl (fun a x => insertB bf x a) acc).Pairwise R := by
    intro l'
    induction l' with
    | nil => intro acc h; exact h
    | cons x xs ih =>
      intro acc hacc
      rw [List.foldl_cons]
      exact ih _ (insertB_pairwise h1 h2 htr x acc hacc)
  exact hgen l [] List.Pairwise.nil

theorem insertB_map {α β : Type} (g : α → β) {bf : α → α → Bool}
    {bg : β → β → Bool} (hcomp : ∀ a b, bf a b = bg (g a) (g b)) (x : α) :
    ∀ l : List α, (insertB bf x l).map g = insertB bg (g x) (l.map g) := by
  intro l
  induction l with
  | nil => rfl
  | cons y ys ih =>
    simp only [insertB, List.map_cons]
    rw [hcomp x y]
    split
    · simp
    · simp only [List.map_cons, ih]

theorem sortB_map {α β : Type} (g : α → β) (bf : α → α → Bool)
    (bg : β → β → Bool) (hcomp : ∀ a b, bf a b = bg (g a) (g b)) (l : List α) :
    (sortB bf l).map g = sortB bg (l.map g) := by
  have hgen : ∀ (l' acc : List α),
      (l'.foldl (fun a x => insertB bf x a) acc).map g =
        (l'.map g).foldl (fun a x => insertB bg x a) (acc.map g) := by
    intro l'
    induction l' with
    | nil => intro acc; rfl
    | cons x xs ih =>
      intro acc
      rw [List.foldl_cons, List.map_cons, List.foldl_cons, ih,
        insertB_map g hcomp]
  exact hgen l []

/-- Two permuted lists that are both strictly sorted by an injective-on-them
key are equal. -/
theorem perm_pairwise_key_eq {α : Type} (key : α → Int) :
    ∀ l₁ l₂ : List α, l₁.Perm l₂ →
      l₁.Pairwise (fun a b => key a < key b) →
      l₂.Pairwise (fun a b => key a < key b) → l₁ = l₂ := by
  intro l₁
  induction l₁ with
  | nil => intro l₂ hp _ _; exact hp.nil_eq
  | cons x t ih =>
    intro l₂ hp h1 h2
    cases l₂ with
    | nil => exact absurd hp.symm.nil_eq (by simp)
    | cons y t₂ =>
      by_cases hxy : x = y
      · subst hxy
        rw [ih t₂ (hp.cons_inv) h1.of_cons h2.of_cons]
      · exfalso
        have hx2 : x ∈ t₂ := by
          have := hp.mem_iff.mp (List.mem_cons_self x t)
          rcases List.mem_cons.mp this with h | h
          · exact absurd h hxy
          · exact h
        have hy1 : y ∈ t := by
          have := hp.symm.mem_iff.mp (List.mem_cons_self y t₂)
          rcases List.mem_cons.mp this with h | h
          · exact absurd h.symm hxy
          · exact h
        exact lt_asymm (List.rel_of_pairwise_cons h1 hy1)
          (List.rel_of_pairwise_cons h2 hx2)

/-! ### Maximum of a list of scores -/

def listMax1 : List Rat → Rat
  | [] => 0
  | x :: xs => xs.foldl max x

theorem foldl_max_bounds :
    ∀ (xs : List Rat) (a : Rat),
      a ≤ xs.foldl max a ∧ ∀ y ∈ xs, y ≤ xs.foldl max a := by
  intro xs
  induction xs with
  | nil => intro a; exact ⟨le_refl a, by intro y h; cases h⟩
  | cons x t ih =>
    intro a
    rw [List.foldl_cons]
    refine ⟨le_trans (le_max_left a x) (ih (max a x)).1, ?_⟩
    intro y hy
    rcases List.mem_cons.mp hy with rfl | hyt
    · exact le_trans (le_max_right a y) (ih (max a y)).1
    · exact (ih (max a x)).2 y hyt

theorem foldl_max_mem :
    ∀ (xs : List Rat) (a : Rat), xs.foldl max a = a ∨ xs.foldl max a ∈ xs := by
  intro xs
  induction xs with
  | nil => intro a; exact Or.inl rfl
  | cons x t ih =>
    intro a
    rw [List.foldl_cons]
    rcases ih (max a x) with h | h
    · rcases max_choice a x with hm | hm
      · exact Or.inl (h.trans hm)
      · exact Or.inr (List.mem_cons.mpr (Or.inl (h.trans hm)))
    · exact Or.inr (List.mem_cons.mpr (Or.inr h))

theorem le_listMax1 {l : List Rat} {x : Rat} (hx : x ∈ l) : x ≤ listMax1 l := by
  cases l with
  | nil => cases hx
  | cons a t =>
    rcases List.mem_cons.mp hx with rfl | hxt
    · exact (foldl_max_bounds t x).1
    · exact (foldl_max_bounds t a).2 x hxt

theorem listMax1_mem {l : List Rat} (h : l ≠ []) : listMax1 l ∈ l := by
  cases l with
  | nil => exact absurd rfl h
  | cons a t =>
    rcases foldl_max_mem t a with hm | hm
    · rw [listMax1, hm]; exact List.mem_cons_self a t
    · exact List.mem_cons.mpr (Or.inr hm)

def wEmbedFail : List (List Char) → Except String (List (List Rat)) :=
  fun _ => Except.error "API error"

def wUpsertOk : List (UpsertItem Unit) → Except String Unit :=
  fun _ => Except.ok ()

def wMetaU : EmbedMeta Unit := { id := "c0", metadata := (), parentId := "p" }

def wText1 : List Char := "doc".data

/-- Witness for C9 at a concrete input: a failing embedding call on a
one-chunk batch is dropped and the function returns normally with the
buffer unchanged; flushing an empty buffer clears it. -/
theorem ingest_failure_policy_witness :
    flushEmbedBatchAndUpsert wEmbedFail wUpsertOk [wText1] [wMetaU] [] =
      Except.ok ([], []) ∧
    (flushUpsertBuffer wUpsertOk ([] : List (UpsertItem Unit))).2 = [] :=
  ⟨ingest_failure_policy.1 Unit wEmbedFail wUpsertOk [wText1] [wMetaU] []
      "API error" rfl rfl,
    (ingest_failure_policy.2 Unit wUpsertOk []).1⟩

/-! ## Chunk-match aggregation

Two copies of `aggregateMatches` exist in the repository:
`src/utils/aggregate.ts` and an extended copy bundled with
`src/utils/clients.ts` (which additionally reconstructs `instructions`
from the matched chunks, sorted by chunk index, and surfaces `recipeId`).
Both are embedded below over a common metadata record.

Chunk metadata is an arbitrary JSON blob in the source, read through
optional chaining with fallback field names; the record `Meta` lists the
fields the two functions actually read (`none` = absent).  JS truthiness
for these optional string fields: absent and `""` are falsy. -/

structure Meta where
  parentId : Option String
  parent_id : Option String
  parent : Option String
  title : Option String
  snippet : Option String
  text : Option String
  instructions : Option String
  chunkIndex : Option Int
  recipeId : Option String
  deriving Repr, DecidableEq

def Meta.empty : Meta := ⟨none, none, none, none, none, none, none, none, none⟩

/-- JS `a || b || ... || d` over optional strings: the first present,
non-empty value, else the default `d`. -/
def firstTruthyD : List (Option String) → String → String
  | [], d => d
  | o :: rest, d =>
    match o with
    | some s => if s = "" then firstTruthyD rest d else s
    | none => firstTruthyD rest d

/-- JS truthiness of an optional string. -/
def truthy (o : Option String) : Bool :=
  match o with
  | some s => s ≠ ""
  | none => false

/-- `meta.parentId || meta.parent_id || meta.parent || "unknown"`. -/
def metaParentId (m : Meta) : String :=
  firstTruthyD [m.parentId, m.parent_id, m.parent] "unknown"

/-- A raw vector-index match `{id, score, metadata}`; `score` and
`metadata` may be absent. -/
structure RawMatch where
  id : String
  score : Option Rat
  metadata : Option Meta
  deriving DecidableEq

/-- `MatchInfo`: the entry `{id, score: m.score ?? 0, metadata: meta}`. -/
structure MatchInfo where
  id : String
  score : Rat
  metadata : Meta
  deriving Repr, DecidableEq

/-- `grouped.get(parentId) || []; arr.push(entry); grouped.set(...)`:
append the entry to its key's group, keys kept in first-insertion order
(JS `Map` iteration order). -/
def addToGroups (k : String) (e : MatchInfo) :
    List (String × List MatchInfo) → List (String × List MatchInfo)
  | [] => [(k, [e])]
  | (k', es) :: rest =>
    if k' = k then (k', es ++ [e]) :: rest else (k', es) :: addToGroups k e rest

/-- The grouping loop shared by both copies of `aggregateMatches`. -/
def groupMatches (ms : List RawMatch) : List (String × List MatchInfo) :=
  ms.foldl
    (fun g m =>
      let meta := m.metadata.getD Meta.empty
      addToGroups (metaParentId meta) ⟨m.id, m.score.getD 0, meta⟩ g) []

/-- Comparator `(a, b) => (b.score ?? 0) - (a.score ?? 0)`: `a` strictly
before `b` iff `b.score < a.score` (scores already defaulted). -/
def scoreBefore (a b : MatchInfo) : Bool := decide (b.score < a.score)

/-- `hits[0]?.score ?? 0`. -/
def headScore (hits : List MatchInfo) : Rat :=
  (hits.head?.map fun h => h.score).getD 0

/-- `hits[0]?.metadata || {}` (a present metadata record is always truthy). -/
def headMeta (hits : List MatchInfo) : Meta :=
  (hits.head?.map fun h => h.metadata).getD Meta.empty

/-! ### `aggregateMatches` of `src/utils/aggregate.ts` -/

structure ParentResult where
  parentId : String
  score : Rat
  title : Option String
  snippet : Option String
  matchedChunks : List MatchInfo
  metadata : Meta
  deriving DecidableEq

namespace Aggregate

/-- The separator in the snippet template literal of `aggregate.ts`
(line 43): a real em-dash U+2014, `` `${firstMeta.title} — ` ``. -/
def emDashSep : String := " — "

/-- `(firstMeta?.title ? title + " — " : "") +
(firstMeta?.snippet || firstMeta?.text?.slice?.(0,160) || "")`. -/
def snippetOf (fm : Meta) : String :=
  (if truthy fm.title then fm.title.getD "" ++ emDashSep else "") ++
    firstTruthyD [fm.snippet, fm.text.map fun t => jsTakeStr t 160] ""

/-- `snippet ? snippet.slice(0, 300) : undefined`, assigned to the result
only when truthy. -/
def finalSnippetOf (fm : Meta) : Option String :=
  let s := snippetOf fm
  if s = "" then none else some (jsTakeStr s 300)

/-- The per-group body of the `for (const [parentId, hits] of grouped)`
loop: sort hits by descending score, aggregate score
`max + 0.1 * sum`, representative title/snippet from the top chunk. -/
def groupResult (pg : String × List MatchInfo) : ParentResult :=
  let hits := sortB scoreBefore pg.2
  let maxScore := headScore hits
  let sumScore := hits.foldl (fun s h => s + h.score) 0
  let aggScore := maxScore + (1 / 10) * sumScore
  let fm := headMeta hits
  { parentId := pg.1, score := aggScore, title := fm.title,
    snippet := finalSnippetOf fm, matchedChunks := hits, metadata := fm }

/-- Comparator `(a, b) => b.score - a.score` on parent results. -/
def resBefore (a b : ParentResult) : Bool := decide (b.score < a.score)

/-- `aggregateMatches(matches, topKParents = 10)`. -/
def aggregateMatches (ms : List RawMatch) (topKParents : Nat := 10) :
    List ParentResult :=
  (sortB resBefore ((groupMatches ms).map groupResult)).take topKParents

end Aggregate

/-! ### `aggregateMatches` of `src/utils/clients.ts` (extended copy) -/

structure ParentResult2 where
  parentId : String
  recipeId : Option String
  score : Rat
  title : Option String
  snippet : Option String
  instructions : Option String
  matchedChunks : List MatchInfo
  metadata : Meta
  deriving DecidableEq

namespace Clients

/-- Comparator `(a, b) => (a.metadata?.chunkIndex || 0) -
(b.metadata?.chunkIndex || 0)`: ascending chunk index. -/
def ciBefore (a b : MatchInfo) : Bool :=
  decide (a.metadata.chunkIndex.getD 0 < b.metadata.chunkIndex.getD 0)

/-- `hits.filter(h => h.metadata?.instructions)`. -/
def instructionHits (hits : List MatchInfo) : List MatchInfo :=
  hits.filter fun h => truthy h.metadata.instructions

/-- `.sort(by chunk index).map(h => h.metadata.instructions).filter(Boolean)`. -/
def instructionChunksOf (hits : List MatchInfo) : List String :=
  ((sortB ciBefore (instructionHits hits)).map
    fun h => h.metadata.instructions.getD "").filter fun s => s ≠ ""

/-- `instructionChunks.length > 0 ? instructionChunks.join(" ").trim() :
undefined`, assigned to the result only when truthy. -/
def instructionsField (hits : List MatchInfo) : Option String :=
  let cs := instructionChunksOf hits
  if cs.isEmpty then none
  else
    let joined := jsTrimString (String.intercalate " " cs)
    if joined = "" then none else some joined

/-- The separator in the snippet template literal of the `clients.ts`
copy: NOT an em-dash but the three-character mojibake sequence
U+00E2 U+20AC U+201D (UTF-8 bytes `c3 a2`, `e2 82 ac`, `e2 80 9d`) that a
mis-decoded em-dash left in that file. -/
def mojibakeSep : String := " â€” "

/-- `(firstMeta?.title ? title + sep : "") +
(firstMeta?.snippet || firstMeta?.text?.slice?.(0,160) || "")` with the
mojibake separator of `clients.ts`. -/
def snippetOf (fm : Meta) : String :=
  (if truthy fm.title then fm.title.getD "" ++ mojibakeSep else "") ++
    firstTruthyD [fm.snippet, fm.text.map fun t => jsTakeStr t 160] ""

/-- `snippet ? snippet.slice(0, 300) : undefined`, assigned to the result
only when truthy. -/
def finalSnippetOf (fm : Meta) : Option String :=
  let s := snippetOf fm
  if s = "" then none else some (jsTakeStr s 300)

/-- The per-group body of the extended copy: identical to
`Aggregate.groupResult` up to the snippet separator, plus `recipeId` and
the reconstructed `instructions`. -/
def groupResult (pg : String × List MatchInfo) : ParentResult2 :=
  let hits := sortB scoreBefore pg.2
  let maxScore := headScore hits
  let sumScore := hits.foldl (fun s h => s + h.score) 0
  let aggScore := maxScore + (1 / 10) * sumScore
  let fm := headMeta hits
  { parentId := pg.1, recipeId := fm.recipeId, score := aggScore,
    title := fm.title, snippet := finalSnippetOf fm,
    instructions := instructionsField hits, matchedChunks := hits,
    metadata := fm }

/-- Comparator `(a, b) => b.score - a.score` on extended parent results. -/
def resBefore (a b : ParentResult2) : Bool := decide (b.score < a.score)

/-- `aggregateMatches(matches, topKParents = 10)` — extended copy. -/
def aggregateMatches (ms : List RawMatch) (topKParents : Nat := 10) :
    List ParentResult2 :=
  (sortB resBefore ((groupMatches ms).map groupResult)).take topKParents

end Clients

/-! ### Aggregation lemmas -/

theorem sortB_score_pairwise (hits : List MatchInfo) :
    (sortB scoreBefore hits).Pairwise fun a b => b.score ≤ a.score := by
  refine sortB_pairwise (R := fun a b => b.score ≤ a.score) ?_ ?_ ?_ hits
  · intro a b h
    exact le_of_lt (of_decide_eq_true h)
  · intro a b h
    exact not_lt.mp (of_decide_eq_false h)
  · intro a b c h1 h2
    exact le_trans h2 h1

theorem headScore_sortB (hits : List MatchInfo) :
    headScore (sortB scoreBefore hits) = listMax1 (hits.map fun h => h.score) := by
  cases hs : sortB scoreBefore hits with
  | nil =>
    have hperm := sortB_perm scoreBefore hits
    rw [hs] at hperm
    rw [← hperm.nil_eq]
    rfl
  | cons x rest =>
    have hperm := sortB_perm scoreBefore hits
    rw [hs] at hperm
    have hxmem : x ∈ hits := hperm.mem_iff.mp (List.mem_cons_self x rest)
    have hpair := sortB_score_pairwise hits
    rw [hs] at hpair
    have hhs : headScore (x :: rest) = x.score := rfl
    rw [hhs]
    apply le_antisymm
    · exact le_listMax1 (List.mem_map_of_mem _ hxmem)
    · have hne : hits.map (fun h => h.score) ≠ [] := by
        intro hmap
        rw [List.map_eq_nil] at hmap
        rw [hmap] at hxmem
        cases hxmem
      obtain ⟨z, hz, hzs⟩ := List.mem_map.mp (listMax1_mem hne)
      have hzsort : z ∈ x :: rest := hperm.symm.mem_iff.mp hz
      rw [← hzs]
      rcases List.mem_cons.mp hzsort with rfl | hzr
      · exact le_refl _
      · exact List.rel_of_pairwise_cons hpair hzr

theorem foldl_add_score (l : List MatchInfo) :
    ∀ a : Rat, l.foldl (fun s h => s + h.score) a = a + (l.map fun h => h.score).sum := by
  induction l with
  | nil => intro a; simp
  | cons x t ih =>
    intro a
    rw [List.foldl_cons, ih, List.map_cons, List.sum_cons]
    ring

theorem sum_scores_sortB (hits : List MatchInfo) :
    ((sortB scoreBefore hits).map fun h => h.score).sum =
      (hits.map fun h => h.score).sum :=
  ((sortB_perm scoreBefore hits).map _).sum_eq

/-! ### Claim C5 — aggregate score, ordering, truncation -/

/-- Claim C5: each parent group is assigned the aggregate score
`max(chunkScores) + 0.1 * sum(chunkScores)` over the group's chunk scores,
and `aggregateMatches` returns the groups sorted by this score in
descending order, truncated to at most `topKParents` entries. -/
theorem aggregate_scoring (ms : List RawMatch) (topKParents : Nat) :
    (∀ g ∈ groupMatches ms, (Aggregate.groupResult g).score =
      listMax1 (g.2.map fun h => h.score) +
        (1 / 10) * (g.2.map fun h => h.score).sum) ∧
    (Aggregate.aggregateMatches ms topKParents).Pairwise
      (fun a b => b.score ≤ a.score) ∧
    (Aggregate.aggregateMatches ms topKParents).length ≤ topKParents := by
  refine ⟨?_, ?_, ?_⟩
  · intro g _
    show headScore (sortB scoreBefore g.2) +
        (1 / 10) * ((sortB scoreBefore g.2).foldl (fun s h => s + h.score) 0) = _
    rw [headScore_sortB, foldl_add_score, zero_add, sum_scores_sortB]
  · unfold Aggregate.aggregateMatches
    refine List.Pairwise.sublist (List.take_sublist _ _) ?_
    refine sortB_pairwise (R := fun a b : ParentResult => b.score ≤ a.score) ?_ ?_ ?_ _
    · intro a b h
      exact le_of_lt (of_decide_eq_true h)
    · intro a b h
      exact not_lt.mp (of_decide_eq_false h)
    · intro a b c h1 h2
      exact le_trans h2 h1
  · unfold Aggregate.aggregateMatches
    exact List.length_take_le _ _

def wParentA : String := "A"
def wChunk1 : String := "A#c0"
def wChunk2 : String := "A#c1"

def wMetaA : Meta :=
  { Meta.empty with parentId := some wParentA }

def wGroupA : String × List MatchInfo :=
  (wParentA, [⟨wChunk1, 1 / 2, wMetaA⟩, ⟨wChunk2, 3 / 4, wMetaA⟩])

def wMatches : List RawMatch :=
  [{ id := wChunk1, score := some (1 / 2), metadata := some wMetaA },
   { id := wChunk2, score := some (3 / 4), metadata := some wMetaA }]

/-- Witness for C5 at a concrete input: the single group of two matches
with scores 1/2 and 3/4 is scored `max + 0.1 * sum = 3/4 + 1/8 = 7/8`. -/
theorem aggregate_scoring_witness :
    (Aggregate.groupResult wGroupA).score =
      listMax1 (wGroupA.2.map fun h => h.score) +
        (1 / 10) * (wGroupA.2.map fun h => h.score).sum :=
  (aggregate_scoring wMatches 10).1 wGroupA
    (by
      have h : groupMatches wMatches = [wGroupA] := rfl
      rw [h]
      exact List.mem_singleton_self wGroupA)

/-! ### Claim C6 — instructions reconstructed in chunk-index order -/

/-- The chunk-index key the `clients.ts` copy sorts instruction chunks by:
`hit.metadata?.chunkIndex || 0`. -/
def ciKey (m : MatchInfo) : Int := m.metadata.chunkIndex.getD 0

theorem sortB_ci_pairwise (l : List MatchInfo) :
    (sortB Clients.ciBefore l).Pairwise fun a b => ciKey a ≤ ciKey b := by
  refine sortB_pairwise (R := fun a b : MatchInfo => ciKey a ≤ ciKey b) ?_ ?_ ?_ l
  · intro a b h
    exact le_of_lt (of_decide_eq_true h)
  · intro a b h
    exact not_lt.mp (of_decide_eq_false h)
  · intro a b c h1 h2
    exact le_trans h1 h2

/-- Sorting by chunk index is canonical on lists with pairwise-distinct
chunk indices: permuted inputs sort to the same list. -/
theorem ciSort_eq_of_perm {A B : List MatchInfo} (hperm : A.Perm B)
    (hdist : A.Pairwise fun a b => ciKey a ≠ ciKey b) :
    sortB Clients.ciBefore A = sortB Clients.ciBefore B := by
  have hdistB : B.Pairwise fun a b => ciKey a ≠ ciKey b :=
    (hperm.pairwise_iff fun h => Ne.symm h).mp hdist
  have hstrict : ∀ C : List MatchInfo,
      (C.Pairwise fun a b => ciKey a ≠ ciKey b) →
      (sortB Clients.ciBefore C).Pairwise fun a b => ciKey a < ciKey b := by
    intro C hC
    have hne : (sortB Clients.ciBefore C).Pairwise
        fun a b => ciKey a ≠ ciKey b :=
      ((sortB_perm Clients.ciBefore C).pairwise_iff fun h => Ne.symm h).mpr hC
    have hle := sortB_ci_pairwise C
    exact (hle.and hne).imp fun h => lt_of_le_of_ne h.1 h.2
  apply perm_pairwise_key_eq ciKey
  · exact ((sortB_perm _ A).trans hperm).trans (sortB_perm _ B).symm
  · exact hstrict A hdist
  · exact hstrict B hdistB

def exPid : String := "R1"
def step0 : String := "Chop the onion."
def step1 : String := "Add the tomato."
def step2 : String := "Simmer gently."
def exInstrExpected : String := "Chop the onion. Add the tomato. Simmer gently."

def exMeta0 : Meta :=
  { Meta.empty with
    parentId := some exPid
    chunkIndex := some 0
    instructions := some step0 }
def exMeta1 : Meta :=
  { Meta.empty with
    parentId := some exPid
    chunkIndex := some 1
    instructions := some step1 }
def exMeta2 : Meta :=
  { Meta.empty with
    parentId := some exPid
    chunkIndex := some 2
    instructions := some step2 }

/-- Chunk matches for one parent arriving in score order
[chunk#2, chunk#0, chunk#1]. -/
def exArrival : List RawMatch :=
  [{ id := exPid, score := some 9, metadata := some exMeta2 },
   { id := exPid, score := some 5, metadata := some exMeta0 },
   { id := exPid, score := some 7, metadata := some exMeta1 }]

def exHits : List MatchInfo :=
  [⟨exPid, 9, exMeta2⟩, ⟨exPid, 5, exMeta0⟩, ⟨exPid, 7, exMeta1⟩]

def exHitsPerm : List MatchInfo :=
  [⟨exPid, 5, exMeta0⟩, ⟨exPid, 7, exMeta1⟩, ⟨exPid, 9, exMeta2⟩]

/-- Claim C6: in the `clients.ts` copy of `aggregateMatches`, the
instruction chunks of a parent group are taken in ascending chunk-index
order — the sorted list is ordered by `chunkIndex || 0` and is a
permutation of the instruction-bearing hits; when the chunk indices are
pairwise distinct the reconstructed `instructions` string does not depend
on the arrival order; and on the concrete arrival order
[chunk#2, chunk#0, chunk#1] the reconstruction is chunk#0 ++ chunk#1 ++
chunk#2. -/
theorem instructions_index_order :
    (∀ hits : List MatchInfo,
      ((sortB Clients.ciBefore (Clients.instructionHits hits)).Pairwise
        fun a b => ciKey a ≤ ciKey b) ∧
      (sortB Clients.ciBefore (Clients.instructionHits hits)).Perm
        (Clients.instructionHits hits)) ∧
    (∀ (pid : String) (hits hits' : List MatchInfo), hits.Perm hits' →
      ((Clients.instructionHits hits).Pairwise
        fun a b => ciKey a ≠ ciKey b) →
      (Clients.groupResult (pid, hits)).instructions =
        (Clients.groupResult (pid, hits')).instructions) ∧
    (Clients.aggregateMatches exArrival 10).map (fun r => r.instructions) =
      [some exInstrExpected] := by
  refine ⟨?_, ?_, ?_⟩
  · intro hits
    exact ⟨sortB_ci_pairwise _, sortB_perm _ _⟩
  · intro pid hits hits' hperm hdist
    show Clients.instructionsField (sortB scoreBefore hits) =
      Clients.instructionsField (sortB scoreBefore hits')
    have hA : (Clients.instructionHits (sortB scoreBefore hits)).Perm
        (Clients.instructionHits hits) :=
      (sortB_perm scoreBefore hits).filter _
    have hB : (Clients.instructionHits (sortB scoreBefore hits')).Perm
        (Clients.instructionHits hits') :=
      (sortB_perm scoreBefore hits').filter _
    have hdistA : (Clients.instructionHits (sortB scoreBefore hits)).Pairwise
        fun a b => ciKey a ≠ ciKey b :=
      (hA.pairwise_iff fun h => Ne.symm h).mpr hdist
    have hchain : (Clients.instructionHits (sortB scoreBefore hits)).Perm
        (Clients.instructionHits (sortB scoreBefore hits')) :=
      (hA.trans (hperm.filter _)).trans hB.symm
    have hsorteq := ciSort_eq_of_perm hchain hdistA
    unfold Clients.instructionsField Clients.instructionChunksOf
    rw [hsorteq]
  · rfl

/-- Witness for C6: the permutation-invariance part applied at the
concrete hits [chunk#2, chunk#0, chunk#1] versus
[chunk#0, chunk#1, chunk#2]. -/
theorem instructions_index_order_witness :
    (Clients.groupResult (exPid, exHits)).instructions =
      (Clients.groupResult (exPid, exHitsPerm)).instructions :=
  instructions_index_order.2.1 exPid exHits exHitsPerm (by decide) (by decide)

/-! ### Claim C10 — the two `aggregateMatches` copies -/

/-- Projection of an extended result onto the full common-field record,
`snippet` included (the shape the claim asserts the two copies agree on;
the extended copy additionally has `recipeId` and `instructions`). -/
def projR (r : ParentResult2) : ParentResult :=
  { parentId := r.parentId, score := r.score, title := r.title,
    snippet := r.snippet, matchedChunks := r.matchedChunks,
    metadata := r.metadata }

def cxTitle : String := "Tomato Soup"

def cxMeta : Meta :=
  { Meta.empty with
    parentId := some wParentA
    title := some cxTitle }

/-- One chunk match whose metadata has a truthy title, so both snippet
templates fire. -/
def cxMatches : List RawMatch :=
  [{ id := wChunk1, score := some 1, metadata := some cxMeta }]

/-- Counterexample for C10 as stated: the snippet separators of the two
source files differ — `aggregate.ts` has a real em-dash, `clients.ts` has
the mojibake `U+00E2 U+20AC U+201D` — so on a match with a truthy title
the two copies return different `snippet` strings and the claimed
agreement on all common fields fails. -/
theorem aggregate_copies_snippet_counterexample :
    (Clients.aggregateMatches cxMatches 10).map projR ≠
      Aggregate.aggregateMatches cxMatches 10 ∧
    (Clients.aggregateMatches cxMatches 10).map (fun r => r.snippet) =
      [some (cxTitle ++ Clients.mojibakeSep)] ∧
    (Aggregate.aggregateMatches cxMatches 10).map (fun r => r.snippet) =
      [some (cxTitle ++ Aggregate.emDashSep)] := by
  have h2 : (Clients.aggregateMatches cxMatches 10).map (fun r => r.snippet) =
      [some (cxTitle ++ Clients.mojibakeSep)] := rfl
  have h3 : (Aggregate.aggregateMatches cxMatches 10).map (fun r => r.snippet) =
      [some (cxTitle ++ Aggregate.emDashSep)] := rfl
  refine ⟨?_, h2, h3⟩
  intro heq
  have hcomp : ((Clients.aggregateMatches cxMatches 10).map projR).map
      (fun r => r.snippet) =
      (Clients.aggregateMatches cxMatches 10).map (fun r => r.snippet) := by
    rw [List.map_map]
    rfl
  have hs := (hcomp.symm.trans
    (congrArg (List.map fun r => r.snippet) heq)).symm.trans h2
  rw [h3] at hs
  injection hs with hhead _
  have hne : ¬ (cxTitle ++ Clients.mojibakeSep =
      cxTitle ++ Aggregate.emDashSep) := by decide
  exact hne (Option.some.inj hhead.symm)

/-- The fields on which the two copies do agree: everything the claim
lists except `snippet`. -/
structure CommonFields where
  parentId : String
  score : Rat
  title : Option String
  matchedChunks : List MatchInfo
  metadata : Meta
  deriving DecidableEq

def commonOf1 (r : ParentResult) : CommonFields :=
  ⟨r.parentId, r.score, r.title, r.matchedChunks, r.metadata⟩

def commonOf2 (r : ParentResult2) : CommonFields :=
  ⟨r.parentId, r.score, r.title, r.matchedChunks, r.metadata⟩

/-- Score-descending comparator on the common-field records. -/
def commonBefore (a b : CommonFields) : Bool := decide (b.score < a.score)

/-- Amended claim C10: on every input and every `topKParents`, the two
copies of `aggregateMatches` return the same parents in the same order
with the same `parentId`, `score`, `title`, `matchedChunks` and
`metadata`; `snippet` agrees exactly when the top chunk's title is falsy —
when the title is truthy the two snippets differ only in the separator,
because `clients.ts` carries a mojibake em-dash in its template literal
(the extended copy otherwise only adds `recipeId` and `instructions`). -/
theorem aggregate_copies_common_agree (ms : List RawMatch)
    (topKParents : Nat) :
    ((Clients.aggregateMatches ms topKParents).map commonOf2 =
      (Aggregate.aggregateMatches ms topKParents).map commonOf1) ∧
    (∀ g : String × List MatchInfo,
      truthy (headMeta (sortB scoreBefore g.2)).title = false →
      (Clients.groupResult g).snippet = (Aggregate.groupResult g).snippet) := by
  constructor
  · unfold Clients.aggregateMatches Aggregate.aggregateMatches
    rw [List.map_take, List.map_take]
    congr 1
    rw [sortB_map commonOf2 Clients.resBefore commonBefore (fun a b => rfl),
      sortB_map commonOf1 Aggregate.resBefore commonBefore (fun a b => rfl),
      List.map_map, List.map_map]
    rfl
  · intro g htitle
    show Clients.finalSnippetOf (headMeta (sortB scoreBefore g.2)) =
      Aggregate.finalSnippetOf (headMeta (sortB scoreBefore g.2))
    unfold Clients.finalSnippetOf Aggregate.finalSnippetOf
      Clients.snippetOf Aggregate.snippetOf
    rw [htitle]
    simp only [Bool.false_eq_true, if_false]

def wgSingle : String × List MatchInfo := (wParentA, [⟨wChunk1, 2, wMetaA⟩])

/-- Witness for C10's amended theorem at a concrete input: a group whose
top chunk has no title gets the same (absent) snippet from both copies. -/
theorem aggregate_copies_common_agree_witness :
    (Clients.groupResult wgSingle).snippet =
      (Aggregate.groupResult wgSingle).snippet :=
  (aggregate_copies_common_agree [] 0).2 wgSingle (by decide)

/-! ## Ingredient matcher (`postMatchByIngredients` in the match
controller)

```
function normalizeIngredientToken(s) {
    return s.toLowerCase().replace(/[^a-z0-9\s]/g, "").replace(/\s+/g, " ").trim();
}
```

The embedding works on `List Char`.  The two I/O collaborators of the
fallback tier — embedding the query and querying the vector index — are
folded into one oracle `List Char → List RawMatch` mapping the query text
`ingredients.join(" ")` to `reply.matches || []`. -/

/-- A character kept by `replace(/[^a-z0-9\s]/g, "")` (after lowercasing). -/
def keptChar (c : Char) : Bool :=
  ('a' ≤ c && c ≤ 'z') || ('0' ≤ c && c ≤ '9') || isWS c

/-- `replace(/\s+/g, " ")`: collapse every whitespace run to one space. -/
def collapseWS : List Char → List Char
  | [] => []
  | [c] => [if isWS c then ' ' else c]
  | c1 :: c2 :: rest =>
    if isWS c1 && isWS c2 then collapseWS (c2 :: rest)
    else (if isWS c1 then ' ' else c1) :: collapseWS (c2 :: rest)

def normalizeIngredientToken (s : List Char) : List Char :=
  jsTrim (collapseWS ((s.map Char.toLower).filter keptChar))

/-- A delimiter of the ingredient split `split(/[,;|\n]/)`. -/
def isDelim (c : Char) : Bool :=
  c = ',' || c = ';' || c = '|' || c = '\n'

/-- JS `raw.split(/[,;|\n]/)` (an empty string splits to `[""]`). -/
def splitDelims (s : List Char) : List (List Char) :=
  s.foldr
    (fun c acc =>
      if isDelim c then [] :: acc
      else
        match acc with
        | [] => [[c]]
        | a :: rest => (c :: a) :: rest) [[]]

/-- `reqIngRaw.split(/[,;|\n]/).map(normalizeIngredientToken).filter(Boolean)`. -/
def reqTokensOf (raw : List Char) : List (List Char) :=
  ((splitDelims raw).map normalizeIngredientToken).filter fun t => !t.isEmpty

/-- The metadata block of a cached recipe (`fullRecipeObj.metadata`). -/
structure RMeta where
  prepTime : Option Rat
  cookTime : Option Rat
  servings : Option Rat
  deriving DecidableEq

def RMeta.empty : RMeta := ⟨none, none, none⟩

/-- The fields of a cached full-recipe object the matcher reads:
`ingredients` (raw string), `title`, `metadata`. -/
structure Recipe where
  ingredients : List Char
  title : String
  rmeta : RMeta
  deriving DecidableEq

/-- `missing = reqTokens.filter(t => !providedSet.has(t))`. -/
def exactMissing (provided : List (List Char)) (raw : List Char) :
    List (List Char) :=
  (reqTokensOf raw).filter fun t => !(decide (t ∈ provided))

/-- `matchScore = reqTokens.length ? matchedCount / reqTokens.length : 0`
with `matchedCount = reqTokens.length - missing.length`. -/
def exactMatchScore (provided : List (List Char)) (raw : List Char) : Rat :=
  let toks := reqTokensOf raw
  let missing := exactMissing provided raw
  let matchedCount := toks.length - missing.length
  if toks.length ≠ 0 then (matchedCount : Rat) / (toks.length : Rat) else 0

/-- One exact-tier result object — the literal
`{parentId, score, missingIngredients, recipe}`. -/
structure ExactItem where
  parentId : String
  score : Rat
  missingIngredients : List (List Char)
  recipe : Recipe
  deriving DecidableEq

/-- The body of the exact-tier scan for one cache entry: push
`{parentId, score: 1, missingIngredients: [], recipe}` when the score is
exactly 1, push the scored item when the score is at least 0.6, else skip. -/
def mkExactItem (provided : List (List Char)) (pid : String) (r : Recipe) :
    Option ExactItem :=
  let score := exactMatchScore provided r.ingredients
  if score = 1 then some ⟨pid, 1, [], r⟩
  else if 6 / 10 ≤ score then
    some ⟨pid, score, exactMissing provided r.ingredients, r⟩
  else none

/-- Comparator `(a, b) => b.score - a.score` on exact items. -/
def exBefore (a b : ExactItem) : Bool := decide (b.score < a.score)

/-- The exact tier: scan the full-recipe cache in entry order, then
`exactMatches.sort((a, b) => b.score - a.score)`. -/
def exactMatchesOf (cache : List (String × Recipe))
    (provided : List (List Char)) : List ExactItem :=
  sortB exBefore (cache.filterMap fun pr => mkExactItem provided pr.1 pr.2)

/-- One fallback-tier result object — the literal
`{parentId, matchScore, missingIngredients, fullRecipeSnippet, metadata}`. -/
structure FuzzyItem where
  parentId : String
  matchScore : Rat
  missingIngredients : List (List Char)
  fullRecipeSnippet : Option String
  metadata : RMeta
  deriving DecidableEq

/-- `full[p.parentId]` on the cache. -/
def lookupRecipe (cache : List (String × Recipe)) (pid : String) :
    Option Recipe :=
  (cache.find? fun pr => pr.1 == pid).map fun pr => pr.2

/-- The per-parent body of the fallback tier: recompute the
missing-ingredient calculation against the cached document
(`r?.ingredients || ""`), `fullRecipeSnippet: r && r.title ? r.title :
undefined`, `metadata: r?.metadata || {}`. -/
def mkFuzzyItem (cache : List (String × Recipe))
    (provided : List (List Char)) (p : ParentResult) : FuzzyItem :=
  let r := lookupRecipe cache p.parentId
  let raw := (r.map fun x => x.ingredients).getD []
  { parentId := p.parentId
    matchScore := exactMatchScore provided raw
    missingIngredients := exactMissing provided raw
    fullRecipeSnippet := r.bind fun x =>
      if x.title = "" then none else some x.title
    metadata := (r.map fun x => x.rmeta).getD RMeta.empty }

/-- Comparator `(a, b) => b.matchScore - a.matchScore`. -/
def fzBefore (a b : FuzzyItem) : Bool := decide (b.matchScore < a.matchScore)

/-- The fallback tier: aggregate the oracle's 50 fuzzy chunk matches into
parents, recompute missing ingredients per parent, sort by match score
descending, return at most 50. -/
def fuzzyResultsOf (cache : List (String × Recipe))
    (provided : List (List Char)) (oracleMatches : List RawMatch) :
    List FuzzyItem :=
  let parents := Aggregate.aggregateMatches oracleMatches 50
  (sortB fzBefore (parents.map (mkFuzzyItem cache provided))).take 50

/-- The controller's response: the exact tier returns
`{results: exactMatches.slice(0, 50)}`, the fallback tier returns
`{results: results.slice(0, 50)}` with differently-shaped items. -/
inductive MatchResponse where
  | exact (items : List ExactItem)
  | fuzzy (items : List FuzzyItem)
  deriving DecidableEq

/-- `postMatchByIngredients`: normalize the provided ingredients, reject
an empty list, scan the cache for exact matches, return them when there
are at least 10, otherwise run the vector-search fallback on the query
`ingredients.join(" ")`. -/
def postMatchByIngredients (cache : List (String × Recipe))
    (ingredients0 : List (List Char))
    (oracle : List Char → List RawMatch) : Except String MatchResponse :=
  let ingredients := ingredients0.map normalizeIngredientToken
  if ingredients.isEmpty then Except.error "ingredients required"
  else
    let ex := exactMatchesOf cache ingredients
    if 10 ≤ ex.length then Except.ok (MatchResponse.exact (ex.take 50))
    else
      let qText := List.intercalate [' '] ingredients
      Except.ok (MatchResponse.fuzzy
        (fuzzyResultsOf cache ingredients (oracle qText)))

/-- The key set of the exact-tier result object literal. -/
def exactItemKeys : List String :=
  [r"parentId", r"score", r"missingIngredients", r"recipe"]

/-- The key set of the fallback-tier result object literal. -/
def fuzzyItemKeys : List String :=
  [r"parentId", r"matchScore", r"missingIngredients", r"fullRecipeSnippet",
    r"metadata"]

/-! ### Claim C3 — exact-tier match score -/

theorem filter_not_length_countP (p : List Char → Bool) :
    ∀ l : List (List Char),
      (l.filter fun t => !(p t)).length + l.countP p = l.length := by
  intro l
  induction l with
  | nil => rfl
  | cons a t ih =>
    rw [List.filter_cons, List.countP_cons]
    cases hpa : p a
    · simp [hpa]
      omega
    · simp [hpa]
      omega

/-- Amended claim C3: in the exact tier, when the document's normalized
ingredient token list is non-empty the computed `matchScore` equals
`matchedTokenCount / totalTokenCount`; when the token list is empty the
code computes `matchScore = 0` (the `: 0` arm of the conditional), not
1.0, and such a document is never kept. -/
theorem exactMatchScore_spec (provided : List (List Char)) (raw : List Char) :
    (reqTokensOf raw ≠ [] →
      exactMatchScore provided raw =
        (((reqTokensOf raw).countP fun t => decide (t ∈ provided) : Nat) : Rat) /
          (((reqTokensOf raw).length : Nat) : Rat)) ∧
    (reqTokensOf raw = [] → exactMatchScore provided raw = 0) := by
  constructor
  · intro hne
    have hlen : (reqTokensOf raw).length ≠ 0 := by
      intro h0
      exact hne (List.eq_nil_of_length_eq_zero h0)
    unfold exactMatchScore
    rw [if_pos hlen]
    have hcount := filter_not_length_countP
      (fun t => decide (t ∈ provided)) (reqTokensOf raw)
    have hmc : (reqTokensOf raw).length - (exactMissing provided raw).length =
        (reqTokensOf raw).countP fun t => decide (t ∈ provided) := by
      unfold exactMissing
      omega
    rw [hmc]
  · intro hnil
    unfold exactMatchScore
    rw [hnil]
    rfl

def cTomato : List Char := "tomato".data
def cOnion : List Char := "onion".data
def cGarlicRaw : List Char := "tomato, onion, garlic".data
def cPidE : String := "empty-doc"

def cEmptyRecipe : Recipe :=
  { ingredients := [], title := "Empty", rmeta := RMeta.empty }

/-- Counterexample for C3 as stated: a cached document with an empty
ingredient list gets `matchScore = 0`, not the claimed vacuous 1.0, and
the exact tier drops it entirely. -/
theorem exactMatchScore_empty_counterexample :
    exactMatchScore [cTomato] [] = 0 ∧
    mkExactItem [cTomato] cPidE cEmptyRecipe = none ∧
    (0 : Rat) ≠ 1 := by
  refine ⟨rfl, ?_, by norm_num⟩
  unfold mkExactItem
  have hs : exactMatchScore [cTomato] cEmptyRecipe.ingredients = 0 := rfl
  rw [hs, if_neg (by norm_num), if_neg (by norm_num)]

/-- Witness for C3's amended theorem at the spec's own test vector:
provided `{tomato, onion}` against ingredients
`"tomato, onion, garlic"` gives `matchScore = matched / total`
(= 2/3). -/
theorem exactMatchScore_spec_witness :
    exactMatchScore [cTomato, cOnion] cGarlicRaw =
      (((reqTokensOf cGarlicRaw).countP
        fun t => decide (t ∈ [cTomato, cOnion]) : Nat) : Rat) /
        (((reqTokensOf cGarlicRaw).length : Nat) : Rat) :=
  (exactMatchScore_spec [cTomato, cOnion] cGarlicRaw).1 (by decide)

/-! ### Claim C4 — fallback trigger -/

/-- Unfolding of the controller past its input validation. -/
theorem postMatch_unfold (cache : List (String × Recipe))
    (ing0 : List (List Char)) (oracle : List Char → List RawMatch)
    (h : (ing0.map normalizeIngredientToken).isEmpty = false) :
    postMatchByIngredients cache ing0 oracle =
      if 10 ≤ (exactMatchesOf cache (ing0.map normalizeIngredientToken)).length
      then Except.ok (MatchResponse.exact
        ((exactMatchesOf cache (ing0.map normalizeIngredientToken)).take 50))
      else Except.ok (MatchResponse.fuzzy (fuzzyResultsOf cache
        (ing0.map normalizeIngredientToken)
        (oracle (List.intercalate [' ']
          (ing0.map normalizeIngredientToken))))) := by
  simp only [postMatchByIngredients, h, Bool.false_eq_true, if_false]

/-- Claim C4: with a non-empty ingredient list, the fallback (vector
search) tier runs iff the exact tier yields fewer than 10 candidates.
With 10 or more exact candidates the response is the exact top-50 and the
vector-search oracle is never consulted (the response is the same for any
oracle); with 9 or fewer the response is the fallback tier's result on the
query `ingredients.join(" ")`. -/
theorem fallback_trigger (cache : List (String × Recipe))
    (ing0 : List (List Char)) (oracle oracle' : List Char → List RawMatch)
    (h : ing0 ≠ []) :
    (10 ≤ (exactMatchesOf cache (ing0.map normalizeIngredientToken)).length →
      postMatchByIngredients cache ing0 oracle =
        Except.ok (MatchResponse.exact
          ((exactMatchesOf cache (ing0.map normalizeIngredientToken)).take 50)) ∧
      postMatchByIngredients cache ing0 oracle =
        postMatchByIngredients cache ing0 oracle') ∧
    ((exactMatchesOf cache (ing0.map normalizeIngredientToken)).length < 10 →
      postMatchByIngredients cache ing0 oracle =
        Except.ok (MatchResponse.fuzzy (fuzzyResultsOf cache
          (ing0.map normalizeIngredientToken)
          (oracle (List.intercalate [' ']
            (ing0.map normalizeIngredientToken)))))) := by
  have hne : (ing0.map normalizeIngredientToken).isEmpty = false := by
    cases hc : (ing0.map normalizeIngredientToken).isEmpty
    · rfl
    · rw [List.isEmpty_iff, List.map_eq_nil_iff] at hc
      exact absurd hc h
  constructor
  · intro h10
    constructor
    · rw [postMatch_unfold cache ing0 oracle hne, if_pos h10]
    · rw [postMatch_unfold cache ing0 oracle hne,
        postMatch_unfold cache ing0 oracle' hne, if_pos h10, if_pos h10]
  · intro hlt
    rw [postMatch_unfold cache ing0 oracle hne, if_neg (by omega)]

def wOracleEmpty : List Char → List RawMatch := fun _ => []

/-- Witness for C4 at a concrete input: with an empty cache the exact
tier yields 0 < 10 candidates, so the fallback tier runs (here on an
oracle returning no matches, giving an empty fuzzy result). -/
theorem fallback_trigger_witness :
    postMatchByIngredients [] [cTomato] wOracleEmpty =
      Except.ok (MatchResponse.fuzzy []) :=
  (fallback_trigger [] [cTomato] wOracleEmpty wOracleEmpty
    (by decide)).2 (by decide)

/-! ### Claim C8 — result caps and item shape -/

/-- Amended claim C8: each of the two tiers returns at most 50 results.
A fallback-tier item carries the fields `parentId`, `matchScore`,
`missingIngredients`, `fullRecipeSnippet` and `metadata`; an exact-tier
item carries `parentId`, `score` (the match score, under that name),
`missingIngredients` and the whole cached `recipe` object (which contains
the title and metadata) — not a top-level `matchScore` or `metadata`
field. -/
theorem match_response_bounds (cache : List (String × Recipe))
    (ing0 : List (List Char)) (oracle : List Char → List RawMatch)
    (resp : MatchResponse)
    (h : postMatchByIngredients cache ing0 oracle = Except.ok resp) :
    (match resp with
     | MatchResponse.exact items => items.length ≤ 50
     | MatchResponse.fuzzy items => items.length ≤ 50) ∧
    exactItemKeys =
      [r"parentId", r"score", r"missingIngredients", r"recipe"] ∧
    fuzzyItemKeys =
      [r"parentId", r"matchScore", r"missingIngredients",
        r"fullRecipeSnippet", r"metadata"] := by
  refine ⟨?_, rfl, rfl⟩
  have hne : (ing0.map normalizeIngredientToken).isEmpty = false := by
    cases hc : (ing0.map normalizeIngredientToken).isEmpty
    · rfl
    · exfalso
      simp only [postMatchByIngredients, hc, if_true] at h
      cases h
  rw [postMatch_unfold cache ing0 oracle hne] at h
  split at h
  · cases h
    exact List.length_take_le _ _
  · cases h
    show (fuzzyResultsOf _ _ _).length ≤ 50
    unfold fuzzyResultsOf
    exact List.length_take_le _ _

/-- Witness for C8's theorem at a concrete input: the empty cache and one
provided ingredient produce a fallback response of 0 ≤ 50 items. -/
theorem match_response_bounds_witness :
    (match MatchResponse.fuzzy ([] : List FuzzyItem) with
     | MatchResponse.exact items => items.length ≤ 50
     | MatchResponse.fuzzy items => items.length ≤ 50) ∧
    exactItemKeys =
      [r"parentId", r"score", r"missingIngredients", r"recipe"] ∧
    fuzzyItemKeys =
      [r"parentId", r"matchScore", r"missingIngredients",
        r"fullRecipeSnippet", r"metadata"] :=
  match_response_bounds [] [cTomato] wOracleEmpty
    (MatchResponse.fuzzy []) rfl

def cSalt : List Char := "salt".data

def wRecipeSalt : Recipe :=
  { ingredients := cSalt, title := "Salty", rmeta := RMeta.empty }

/-- Ten cache rows with the same single-token ingredient list, so the
exact tier returns ten items and the exact branch is taken. -/
def wCache10 : List (String × Recipe) :=
  [(r"r0", wRecipeSalt), (r"r1", wRecipeSalt), (r"r2", wRecipeSalt),
   (r"r3", wRecipeSalt), (r"r4", wRecipeSalt), (r"r5", wRecipeSalt),
   (r"r6", wRecipeSalt), (r"r7", wRecipeSalt), (r"r8", wRecipeSalt),
   (r"r9", wRecipeSalt)]

def wTenItems : List ExactItem :=
  wCache10.map fun pr => ⟨pr.1, 1, [], wRecipeSalt⟩

theorem mkExactItem_salt (pid : String) :
    mkExactItem [normalizeIngredientToken cSalt] pid wRecipeSalt =
      some ⟨pid, 1, [], wRecipeSalt⟩ := by
  unfold mkExactItem
  have hs : exactMatchScore [normalizeIngredientToken cSalt]
      wRecipeSalt.ingredients = 1 := by
    have h1 : exactMatchScore [normalizeIngredientToken cSalt]
        wRecipeSalt.ingredients = ((1 : Nat) : Rat) / ((1 : Nat) : Rat) := rfl
    rw [h1]
    norm_num
  rw [hs, if_pos rfl]

theorem exactMatchesOf_wCache10 :
    exactMatchesOf wCache10 ([cSalt].map normalizeIngredientToken) =
      wTenItems := by
  show exactMatchesOf wCache10 [normalizeIngredientToken cSalt] = wTenItems
  unfold exactMatchesOf
  have hfm : wCache10.filterMap
      (fun pr => mkExactItem [normalizeIngredientToken cSalt] pr.1 pr.2) =
      wTenItems := by
    simp [wCache10, wTenItems, mkExactItem_salt]
  rw [hfm]
  decide

/-- Counterexample for C8 as stated: on a ten-recipe cache the exact tier
returns ten items as the response, and the exact-tier item shape has no
`matchScore`, `metadata` or `title` field — the score is under `score`
and title/metadata sit inside the nested `recipe` object. -/
theorem exact_item_shape_counterexample :
    10 ≤ (exactMatchesOf wCache10 ([cSalt].map normalizeIngredientToken)).length ∧
    postMatchByIngredients wCache10 [cSalt] wOracleEmpty =
      Except.ok (MatchResponse.exact
        ((exactMatchesOf wCache10 ([cSalt].map normalizeIngredientToken)).take 50)) ∧
    ¬ (r"matchScore") ∈ exactItemKeys ∧
    ¬ (r"metadata") ∈ exactItemKeys ∧
    ¬ (r"title") ∈ exactItemKeys := by
  have h10 : 10 ≤ (exactMatchesOf wCache10
      ([cSalt].map normalizeIngredientToken)).length := by
    rw [exactMatchesOf_wCache10]
    decide
  refine ⟨h10, ?_, by decide, by decide, by decide⟩
  rw [postMatch_unfold wCache10 [cSalt] wOracleEmpty (by decide), if_pos h10]

end Spec2Proof
